import Mathlib

/- Verification of the semi-global sequence aligner from cutadapt's
   `_align.pyx`: the character translation tables, the `Aligner`
   configuration object, the banded dynamic-programming engine `locate`,
   and the anchored prefix comparator `compare_prefixes`.  Machine
   integers of the source (C `int`) are modelled as `Int`; the C `double`
   `max_error_rate` is modelled as `ℚ`. -/

namespace Align

/-- One cell of the DP matrix, following the `_Entry` struct of the source:
accumulated edit `cost`, number of `matchCount` (matching character pairs on the
best path into this cell), and the signed entry point `origin`. -/
structure Entry where
  cost : Int
  matchCount : Int
  origin : Int
deriving Repr, DecidableEq

/-- The running best exit cell, following the `_Match` struct of the source. -/
structure MatchRec where
  origin : Int
  cost : Int
  matchCount : Int
  ref_stop : Int
  query_stop : Int
deriving Repr, DecidableEq

/-- The tuple returned by a successful `locate` call:
`(refstart, refstop, querystart, querystop, matchCount, errors)`. -/
structure LocateResult where
  refstart : Int
  refstop : Int
  querystart : Int
  querystop : Int
  matchCount : Int
  errors : Int
deriving Repr, DecidableEq

/-- Outcome of `locate`: a result tuple, the absence indicator `None`
of the source, or failure of the source's final `assert` statement. -/
inductive LocateOutcome where
  | found (r : LocateResult)
  | nothing
  | assertFailed
deriving Repr, DecidableEq

/-- Translation table `_acgt_table` of the source: A, C, G, T map to single
bits; U is treated as T; lowercase letters are translated the same; every
other byte maps to 0. -/
def acgtTable (c : Char) : Nat :=
  match c with
  | 'A' | 'a' => 1
  | 'C' | 'c' => 2
  | 'G' | 'g' => 4
  | 'T' | 't' | 'U' | 'u' => 8
  | _ => 0

/-- Translation table `_iupac_table` of the source: each IUPAC nucleotide
letter maps to the bitwise union of the ACGT bits it stands for;
case-insensitive; U treated as T; any other byte maps to 0. -/
def iupacTable (c : Char) : Nat :=
  match c with
  | 'X' | 'x' => 0
  | 'A' | 'a' => 1
  | 'C' | 'c' => 2
  | 'G' | 'g' => 4
  | 'T' | 't' | 'U' | 'u' => 8
  | 'R' | 'r' => 5
  | 'Y' | 'y' => 10
  | 'S' | 's' => 6
  | 'W' | 'w' => 9
  | 'K' | 'k' => 12
  | 'M' | 'm' => 3
  | 'B' | 'b' => 14
  | 'D' | 'd' => 13
  | 'H' | 'h' => 11
  | 'V' | 'v' => 7
  | 'N' | 'n' => 15
  | _ => 0

/-- Aligner configuration and state, following the `cdef class Aligner`
fields of the source.  The translated reference buffer is recomputed from
`reference` and the wildcard flags (see `s1bytes`), so it is not stored. -/
structure Aligner where
  reference : List Char
  max_error_rate : ℚ
  min_overlap : Int
  start_in_reference : Bool
  start_in_query : Bool
  stop_in_reference : Bool
  stop_in_query : Bool
  wildcard_ref : Bool
  wildcard_query : Bool
  insertion_cost : Int
  deletion_cost : Int
deriving Repr, DecidableEq

/-- Translation applied to the reference when it is set: IUPAC table under
`wildcard_ref`, else ACGT table under `wildcard_query`, else the raw byte. -/
def refTrans (wr wq : Bool) (c : Char) : Nat :=
  if wr then iupacTable c else if wq then acgtTable c else c.toNat

/-- Translation applied to the query at the start of `locate`: IUPAC table
under `wildcard_query`, else ACGT table under `wildcard_ref`, else raw. -/
def queryTrans (wr wq : Bool) (c : Char) : Nat :=
  if wq then iupacTable c else if wr then acgtTable c else c.toNat

/-- The translated reference byte buffer (`self._reference` of the source). -/
def s1bytes (a : Aligner) : List Nat :=
  a.reference.map (refTrans a.wildcard_ref a.wildcard_query)

/-- The translated query byte buffer computed at the start of `locate`. -/
def s2bytes (a : Aligner) (q : List Char) : List Nat :=
  q.map (queryTrans a.wildcard_ref a.wildcard_query)

/-- ASCII comparison mode: used when neither wildcard flag is set. -/
def compareAscii (a : Aligner) : Bool :=
  !a.wildcard_ref && !a.wildcard_query

/-- C truncation toward zero of a rational, modelling the `<int>` cast
applied to `max_error_rate * m` in the source. -/
def ctrunc (q : ℚ) : Int :=
  if q < 0 then -⌊-q⌋ else ⌊q⌋

/-- Maximum number of allowed errors: `k = <int>(max_error_rate * m)`. -/
def kMax (a : Aligner) : Int :=
  ctrunc (a.max_error_rate * a.reference.length)

/-- Smallest DP column that is computed: `0`, unless `stop_in_query` is
unset, in which case `max(0, n - m - k)`. -/
def minN (a : Aligner) (n : Nat) : Int :=
  if a.stop_in_query then 0 else max 0 ((n : Int) - a.reference.length - kMax a)

/-- Largest DP column that is computed: `n`, unless `start_in_query` is
unset, in which case `min(n, m + k)`. -/
def maxN (a : Aligner) (n : Nat) : Int :=
  if a.start_in_query then (n : Int) else min (n : Int) (a.reference.length + kMax a)

/-- Seed entry for row `i` of the leftmost computed column `min_n`,
following the four-way case split on the two start flags in the source. -/
def seedEntry (a : Aligner) (min_n : Int) (i : Nat) : Entry :=
  if !a.start_in_reference && !a.start_in_query then
    ⟨max (i : Int) min_n * a.insertion_cost, 0, 0⟩
  else if a.start_in_reference && !a.start_in_query then
    ⟨min_n * a.insertion_cost, 0, min 0 (min_n - i)⟩
  else if !a.start_in_reference && a.start_in_query then
    ⟨(i : Int) * a.insertion_cost, 0, max 0 (min_n - i)⟩
  else
    ⟨min (i : Int) min_n * a.insertion_cost, 0, min_n - i⟩

/-- The seeded column `min_n` of the DP matrix, rows `0..m`. -/
def seedColumn (a : Aligner) (min_n : Int) : List Entry :=
  (List.range (a.reference.length + 1)).map (seedEntry a min_n)

/-- One step of the DP column recurrence for a cell with diagonal
(upper-left) neighbor `diag`, upper neighbor `up` (already updated, the
source's `column[i-1]`), and left neighbor `left` (not yet overwritten, the
source's `column[i]`). -/
def computeCell (eq : Bool) (diag up left : Entry) (insC delC : Int) : Entry :=
  if eq then
    ⟨diag.cost, diag.matchCount + 1, diag.origin⟩
  else
    let costDiag := diag.cost + 1
    let costDeletion := left.cost + delC
    let costInsertion := up.cost + insC
    if costDiag ≤ costDeletion ∧ costDiag ≤ costInsertion then
      ⟨costDiag, diag.matchCount, diag.origin⟩
    else if costInsertion ≤ costDeletion then
      ⟨costInsertion, up.matchCount, up.origin⟩
    else
      ⟨costDeletion, left.matchCount, left.origin⟩

/-- Character equality test of the inner loop: byte equality in ASCII mode,
nonzero bitwise AND otherwise. -/
def charEq (ascii : Bool) (c1 c2 : Nat) : Bool :=
  if ascii then c1 == c2 else (c1 &&& c2) != 0

/-- The inner row loop `for i in range(1, last + 1)` of a DP column.
`rows` is the number of rows still to fill, `s1rest` the remaining
reference bytes, `diag` the saved upper-left entry, `up` the updated entry
of the previous row, and `old` the not-yet-overwritten tail of the column
buffer.  Rows beyond `rows` keep their previous values, as the source
updates the buffer in place. -/
def fillRows (ascii : Bool) (insC delC : Int) (c2 : Nat) :
    Nat → List Nat → Entry → Entry → List Entry → List Entry
  | 0, _, _, _, old => old
  | _ + 1, [], _, _, old => old
  | _ + 1, _ :: _, _, _, [] => []
  | rows + 1, c1 :: s1t, diag, up, oldL :: oldT =>
    let cell := computeCell (charEq ascii c1 c2) diag up oldL insC delC
    cell :: fillRows ascii insC delC c2 rows s1t oldL cell oldT

/-- Ukkonen band shrinking after a column is filled:
`while last >= 0 and column[last].cost > k: last -= 1`. -/
def shrinkLast (col : List Entry) (k : Int) (last : Int) : Int :=
  if h : 0 ≤ last ∧ (col.getD last.toNat ⟨0, 0, 0⟩).cost > k then
    shrinkLast col k (last - 1)
  else
    last
termination_by (last + 1).toNat
decreasing_by
  simp_wf
  omega

/-- The acceptance test applied to a candidate exit cell `e` with aligned
reference length `len` against the current `best`: minimum overlap, error
rate within bounds, and the tie-breaking rule (more matchCount wins, ties
broken by strictly smaller cost). -/
def pass (a : Aligner) (best : MatchRec) (e : Entry) (len : Int) : Prop :=
  a.min_overlap ≤ len ∧ (e.cost : ℚ) ≤ (len : ℚ) * a.max_error_rate ∧
    (best.matchCount < e.matchCount ∨ (e.matchCount = best.matchCount ∧ e.cost < best.cost))

instance instDecidablePass (a : Aligner) (best : MatchRec) (e : Entry) (len : Int) :
    Decidable (pass a best e len) := by
  unfold pass
  exact inferInstance

/-- Conditional update of the running best exit, shared by the bottom-row
check and the final-column sweep of the source. -/
def tryUpdate (a : Aligner) (best : MatchRec) (e : Entry) (rstop qstop : Int) : MatchRec :=
  if pass a best e (rstop + min e.origin 0) then
    ⟨e.origin, e.cost, e.matchCount, rstop, qstop⟩
  else
    best

/-- State threaded through the column loop: the column buffer, the Ukkonen
band bound `last`, the running best exit, and the early-exit flag that
models the source's `break` on an exact match. -/
structure LoopState where
  column : List Entry
  last : Int
  best : MatchRec
  stopped : Bool
deriving Repr, DecidableEq

/-- Computation of one DP column `j`: save the old row 0 as the diagonal
entry, update row 0 (origin `j` when a query prefix may be skipped, cost
`j * insertion_cost` otherwise), then fill rows `1..last` in place. -/
def newColumn (a : Aligner) (s2 : List Nat) (st : LoopState) (j : Int) : List Entry :=
  let diag0 := st.column.headD ⟨0, 0, 0⟩
  let e0 := if a.start_in_query then { diag0 with origin := j }
            else { diag0 with cost := j * a.insertion_cost }
  e0 :: fillRows (compareAscii a) a.insertion_cost a.deletion_cost
    (s2.getD (j - 1).toNat 0) st.last.toNat (s1bytes a) diag0 e0 st.column.tail

/-- One iteration of the DP column loop for column `j`: fill the column,
shrink the band, then either grow the band or (when the band reaches row
`m` and `stop_in_query` is set) test the bottom-row cell as a candidate
exit, stopping early on an exact match. -/
def doColumn (a : Aligner) (s2 : List Nat) (k : Int) (st : LoopState) (j : Int) : LoopState :=
  if st.stopped then st else
  let m := a.reference.length
  let col' := newColumn a s2 st j
  let last' := shrinkLast col' k st.last
  if last' < (m : Int) then
    ⟨col', last' + 1, st.best, false⟩
  else if a.stop_in_query then
    let em := col'.getD m ⟨0, 0, 0⟩
    if pass a st.best em ((m : Int) + min em.origin 0) then
      ⟨col', last', ⟨em.origin, em.cost, em.matchCount, (m : Int), j⟩,
        em.cost == 0 && em.matchCount == (m : Int)⟩
    else
      ⟨col', last', st.best, false⟩
  else
    ⟨col', last', st.best, false⟩

/-- The column loop `for j in range(min_n + 1, max_n + 1)`: `count` columns
remain, the next one being column `j`. -/
def runColumns (a : Aligner) (s2 : List Nat) (k : Int) :
    Nat → Int → LoopState → LoopState
  | 0, _, st => st
  | count + 1, j, st => runColumns a s2 k count (j + 1) (doColumn a s2 k st j)

/-- Initial best: `cost = m + n` (sentinel meaning that no alignment was
found), `ref_stop = m`, `query_stop = n`. -/
def initBest (a : Aligner) (n : Nat) : MatchRec :=
  ⟨0, (a.reference.length : Int) + n, 0, (a.reference.length : Int), (n : Int)⟩

/-- Initial Ukkonen bound: `min(m, k + 1)`, or `m` when a reference prefix
may be skipped for free. -/
def initLast (a : Aligner) : Int :=
  if a.start_in_reference then (a.reference.length : Int)
  else min (a.reference.length : Int) (kMax a + 1)

/-- State before the column loop: the seeded column, the initial band
bound, the sentinel best, and the early-exit flag cleared. -/
def initialState (a : Aligner) (n : Nat) : LoopState :=
  ⟨seedColumn a (minN a n), initLast a, initBest a n, false⟩

/-- Number of iterations of the column loop. -/
def colCount (a : Aligner) (n : Nat) : Nat :=
  (maxN a n - minN a n).toNat

/-- The list of consecutive integers `lo, lo+1, ..., lo+count-1`. -/
def intRange (lo : Int) (count : Nat) : List Int :=
  (List.range count).map (fun t : Nat => lo + (t : Int))

/-- First row scanned by the final-column sweep: `0` when a reference
suffix may be skipped, else `m`. -/
def firstI (a : Aligner) : Int :=
  if a.stop_in_reference then 0 else (a.reference.length : Int)

/-- Number of rows scanned by the final-column sweep. -/
def sweepCount (a : Aligner) : Nat :=
  ((a.reference.length : Int) - firstI a + 1).toNat

/-- The final-column sweep: fold the acceptance test over the rows
`first_i..m` of the last computed column, with `query_stop = n`. -/
def sweepFold (a : Aligner) (qstop : Int) (col : List Entry) (idxs : List Int)
    (best : MatchRec) : MatchRec :=
  idxs.foldl (fun b i => tryUpdate a b (col.getD i.toNat ⟨0, 0, 0⟩) i qstop) best

/-- The best exit found by `locate`: run the column loop from the seeded
state, then sweep the final column when it was reached (`max_n == n`). -/
def finalBest (a : Aligner) (q : List Char) : MatchRec :=
  let n := q.length
  let st := runColumns a (s2bytes a q) (kMax a) (colCount a n) (minN a n + 1)
    (initialState a n)
  if maxN a n = (n : Int) then
    sweepFold a (n : Int) st.column (intRange (firstI a) (sweepCount a)) st.best
  else
    st.best

/-- The `locate` method: find an occurrence of the query within the
reference.  Returns the absence indicator when the sentinel best cost
`m + n` was never improved, otherwise derives `(start1, start2)` from the
origin of the best exit and returns the result tuple, subject to the
source's `assert best.ref_stop - start1 > 0`. -/
def locate (a : Aligner) (q : List Char) : LocateOutcome :=
  let b := finalBest a q
  if b.cost = (a.reference.length : Int) + q.length then
    .nothing
  else
    let start1 : Int := if 0 ≤ b.origin then 0 else -b.origin
    let start2 : Int := if 0 ≤ b.origin then b.origin else 0
    if 0 < b.ref_stop - start1 then
      .found ⟨start1, b.ref_stop, start2, b.query_stop, b.matchCount, b.cost⟩
    else
      .assertFailed

/-- Character match test of `compare_prefixes`: original characters are
compared in ASCII mode, translated bytes by bitwise AND otherwise. -/
def charsMatch (wr wq : Bool) (rc qc : Char) : Bool :=
  if !wr && !wq then rc == qc
  else (refTrans wr wq rc &&& queryTrans wr wq qc) != 0

/-- The `compare_prefixes` function of the source: compare the two strings
position by position over `length = min(|ref|, |query|)` and return
`(0, length, 0, length, matchCount, length - matchCount)`. -/
def compare_prefixes (ref query : List Char) (wr wq : Bool) : LocateResult :=
  let length := min ref.length query.length
  let matchCount : Int := ((ref.zip query).countP fun p => charsMatch wr wq p.1 p.2 : Nat)
  ⟨0, (length : Int), 0, (length : Int), matchCount, (length : Int) - matchCount⟩

/-- Setter for the `min_overlap` property: rejects values below 1. -/
def setMinOverlap (a : Aligner) (v : Int) : Except String Aligner :=
  if v < 1 then .error "Minimum overlap must be at least 1"
  else .ok { a with min_overlap := v }

/-- Setter for the `indel_cost` property: rejects values below 1, otherwise
sets insertion and deletion cost to the same value. -/
def setIndelCost (a : Aligner) (v : Int) : Except String Aligner :=
  if v < 1 then .error "Insertion/deletion cost must be at least 1"
  else .ok { a with insertion_cost := v, deletion_cost := v }

end Align

namespace Align

/-- The default entry used when indexing outside the column buffer. -/
def dEntry : Entry := ⟨0, 0, 0⟩

/-- Concrete aligner of the canonical scenario: reference `MISSISSIPPI`,
`max_error_rate = 0.1`, all four boundary flags set, unit indel costs,
no wildcards. -/
def specAligner : Aligner :=
  ⟨"MISSISSIPPI".toList, 1/10, 1, true, true, true, true, false, false, 1, 1⟩

/-- A property holding for every member of a list and for the default
value holds for any `getD` access. -/
theorem getD_prop {α : Type} {P : α → Prop} {l : List α} {d : α}
    (h : ∀ e ∈ l, P e) (hd : P d) (n : Nat) : P (l.getD n d) := by
  rcases h' : l[n]? with _ | e
  · rw [List.getD_eq_getElem?_getD, h']
    exact hd
  · rw [List.getD_eq_getElem?_getD, h']
    exact h e (List.getElem?_mem h')

/-- Membership in a consecutive integer range. -/
theorem mem_intRange {lo : Int} {c : Nat} {j : Int} (h : j ∈ intRange lo c) :
    lo ≤ j ∧ j < lo + c := by
  simp only [intRange, List.mem_map, List.mem_range] at h
  obtain ⟨t, ht, rfl⟩ := h
  omega

/-- Case analysis of the DP recurrence step: the four branches of
`computeCell` and the values they produce. -/
theorem computeCell_cases (eq : Bool) (diag up left : Entry) (insC delC : Int) :
    (eq = true →
      computeCell eq diag up left insC delC =
        ⟨diag.cost, diag.matchCount + 1, diag.origin⟩) ∧
    (eq = false → diag.cost + 1 ≤ left.cost + delC → diag.cost + 1 ≤ up.cost + insC →
      computeCell eq diag up left insC delC =
        ⟨diag.cost + 1, diag.matchCount, diag.origin⟩) ∧
    (eq = false → ¬(diag.cost + 1 ≤ left.cost + delC ∧ diag.cost + 1 ≤ up.cost + insC) →
      up.cost + insC ≤ left.cost + delC →
      computeCell eq diag up left insC delC =
        ⟨up.cost + insC, up.matchCount, up.origin⟩) ∧
    (eq = false → ¬(diag.cost + 1 ≤ left.cost + delC ∧ diag.cost + 1 ≤ up.cost + insC) →
      ¬up.cost + insC ≤ left.cost + delC →
      computeCell eq diag up left insC delC =
        ⟨left.cost + delC, left.matchCount, left.origin⟩) := by
  refine ⟨?_, ?_, ?_, ?_⟩
  · intro h
    simp [computeCell, h]
  · intro h h1 h2
    simp [computeCell, h, h1, h2]
  · intro h h1 h2
    simp only [computeCell, h, Bool.false_eq_true, if_false, if_neg h1, if_pos h2]
  · intro h h1 h2
    simp only [computeCell, h, Bool.false_eq_true, if_false, if_neg h1, if_neg h2]

/-- Each cell filled by the inner row loop is the recurrence step applied
to its diagonal neighbor (`old[i-1]`, or the saved `diag` for the first
filled row), its updated upper neighbor (the previously filled cell, or
the updated row 0), and its left neighbor `old[i]`. -/
theorem fillRows_getD (ascii : Bool) (insC delC : Int) (c2 : Nat) :
    ∀ (i rows : Nat) (s1 : List Nat) (diag up : Entry) (old : List Entry),
      i < rows → i < s1.length → i < old.length →
      (fillRows ascii insC delC c2 rows s1 diag up old).getD i ⟨0, 0, 0⟩ =
        computeCell (charEq ascii (s1.getD i 0) c2)
          (if i = 0 then diag else old.getD (i - 1) ⟨0, 0, 0⟩)
          (if i = 0 then up
            else (fillRows ascii insC delC c2 rows s1 diag up old).getD (i - 1) ⟨0, 0, 0⟩)
          (old.getD i ⟨0, 0, 0⟩) insC delC := by
  intro i
  induction i with
  | zero =>
    intro rows s1 diag up old hr hs ho
    cases rows with
    | zero => omega
    | succ r =>
      cases s1 with
      | nil => simp at hs
      | cons c t =>
        cases old with
        | nil => simp at ho
        | cons L T =>
          simp [fillRows]
  | succ i ih =>
    intro rows s1 diag up old hr hs ho
    cases rows with
    | zero => omega
    | succ r =>
      cases s1 with
      | nil => simp at hs
      | cons c t =>
        cases old with
        | nil => simp at ho
        | cons L T =>
          have hr' : i < r := by omega
          have hs' : i < t.length := by simpa using hs
          have ho' : i < T.length := by simpa using ho
          have hrec := ih r t L (computeCell (charEq ascii c c2) diag up L insC delC)
            T hr' hs' ho'
          simp only [fillRows, List.getD_cons_succ]
          rw [hrec]
          cases i with
          | zero => simp
          | succ i' => simp

/-- Claim C2: in the DP column recurrence of `locate`, every filled cell
equals the recurrence step on its diagonal, upper and left neighbors; when
the two characters match, the step inherits the diagonal cell's cost and
origin with the match count incremented by one (no insertion or deletion
candidate is considered); when they do not match, it takes the mismatch
candidate `diag.cost + 1` whenever that is at most both the deletion
candidate and the insertion candidate, otherwise the insertion candidate
whenever it is at most the deletion candidate, otherwise the deletion
candidate, inheriting origin and match count from the chosen predecessor. -/
theorem claim_C2 (ascii : Bool) (insC delC : Int) (c2 : Nat) (i rows : Nat)
    (s1 : List Nat) (diag up : Entry) (old : List Entry)
    (hr : i < rows) (hs : i < s1.length) (ho : i < old.length) :
    ((fillRows ascii insC delC c2 rows s1 diag up old).getD i ⟨0, 0, 0⟩ =
      computeCell (charEq ascii (s1.getD i 0) c2)
        (if i = 0 then diag else old.getD (i - 1) ⟨0, 0, 0⟩)
        (if i = 0 then up
          else (fillRows ascii insC delC c2 rows s1 diag up old).getD (i - 1) ⟨0, 0, 0⟩)
        (old.getD i ⟨0, 0, 0⟩) insC delC) ∧
    (∀ (eq : Bool) (dg u l : Entry),
      (eq = true →
        computeCell eq dg u l insC delC = ⟨dg.cost, dg.matchCount + 1, dg.origin⟩) ∧
      (eq = false → dg.cost + 1 ≤ l.cost + delC → dg.cost + 1 ≤ u.cost + insC →
        computeCell eq dg u l insC delC = ⟨dg.cost + 1, dg.matchCount, dg.origin⟩) ∧
      (eq = false → ¬(dg.cost + 1 ≤ l.cost + delC ∧ dg.cost + 1 ≤ u.cost + insC) →
        u.cost + insC ≤ l.cost + delC →
        computeCell eq dg u l insC delC = ⟨u.cost + insC, u.matchCount, u.origin⟩) ∧
      (eq = false → ¬(dg.cost + 1 ≤ l.cost + delC ∧ dg.cost + 1 ≤ u.cost + insC) →
        ¬u.cost + insC ≤ l.cost + delC →
        computeCell eq dg u l insC delC = ⟨l.cost + delC, l.matchCount, l.origin⟩)) :=
  ⟨fillRows_getD ascii insC delC c2 i rows s1 diag up old hr hs ho,
   fun eq dg u l => computeCell_cases eq dg u l insC delC⟩

/-- Witness for C2 at a concrete two-row column. -/
theorem claim_C2_witness :
    ((1 : Nat) < 2 ∧ (1 : Nat) < 2 ∧ (1 : Nat) < 2) ∧
    (((fillRows true 1 1 2 2 [1, 2] ⟨0, 0, 7⟩ ⟨0, 0, 8⟩ [⟨0, 0, 9⟩, ⟨5, 0, 3⟩]).getD 1 ⟨0, 0, 0⟩ =
      computeCell (charEq true ([1, 2].getD 1 0) 2)
        (if 1 = 0 then ⟨0, 0, 7⟩ else [(⟨0, 0, 9⟩ : Entry), ⟨5, 0, 3⟩].getD (1 - 1) ⟨0, 0, 0⟩)
        (if 1 = 0 then ⟨0, 0, 8⟩
          else (fillRows true 1 1 2 2 [1, 2] ⟨0, 0, 7⟩ ⟨0, 0, 8⟩
            [⟨0, 0, 9⟩, ⟨5, 0, 3⟩]).getD (1 - 1) ⟨0, 0, 0⟩)
        ([(⟨0, 0, 9⟩ : Entry), ⟨5, 0, 3⟩].getD 1 ⟨0, 0, 0⟩) 1 1) ∧
    (∀ (eq : Bool) (dg u l : Entry),
      (eq = true →
        computeCell eq dg u l 1 1 = ⟨dg.cost, dg.matchCount + 1, dg.origin⟩) ∧
      (eq = false → dg.cost + 1 ≤ l.cost + 1 → dg.cost + 1 ≤ u.cost + 1 →
        computeCell eq dg u l 1 1 = ⟨dg.cost + 1, dg.matchCount, dg.origin⟩) ∧
      (eq = false → ¬(dg.cost + 1 ≤ l.cost + 1 ∧ dg.cost + 1 ≤ u.cost + 1) →
        u.cost + 1 ≤ l.cost + 1 →
        computeCell eq dg u l 1 1 = ⟨u.cost + 1, u.matchCount, u.origin⟩) ∧
      (eq = false → ¬(dg.cost + 1 ≤ l.cost + 1 ∧ dg.cost + 1 ≤ u.cost + 1) →
        ¬u.cost + 1 ≤ l.cost + 1 →
        computeCell eq dg u l 1 1 = ⟨l.cost + 1, l.matchCount, l.origin⟩))) :=
  ⟨⟨by decide, by decide, by decide⟩,
   claim_C2 true 1 1 2 1 2 [1, 2] ⟨0, 0, 7⟩ ⟨0, 0, 8⟩ [⟨0, 0, 9⟩, ⟨5, 0, 3⟩]
     (by decide) (by decide) (by decide)⟩

/-- Index access into the seeded column gives the seed entry. -/
theorem seedColumn_getD (a : Aligner) (min_n : Int) (i : Nat)
    (hi : i ≤ a.reference.length) :
    (seedColumn a min_n).getD i dEntry = seedEntry a min_n i := by
  have hlt : i < a.reference.length + 1 := Nat.lt_succ_of_le hi
  rw [seedColumn, List.getD_eq_getElem?_getD, List.getElem?_map,
    List.getElem?_range hlt]
  rfl

/-- Claim C3: the seed column is initialized exactly by the four-way table
on the two start flags, with all seeded match counts equal to zero. -/
theorem claim_C3 (a : Aligner) (min_n : Int) (i : Nat)
    (hi : i ≤ a.reference.length) :
    (seedColumn a min_n).getD i dEntry =
      (if a.start_in_reference = false ∧ a.start_in_query = false then
        ⟨max (i : Int) min_n * a.insertion_cost, 0, 0⟩
      else if a.start_in_reference = true ∧ a.start_in_query = false then
        ⟨min_n * a.insertion_cost, 0, min 0 (min_n - i)⟩
      else if a.start_in_reference = false ∧ a.start_in_query = true then
        ⟨(i : Int) * a.insertion_cost, 0, max 0 (min_n - i)⟩
      else
        ⟨min (i : Int) min_n * a.insertion_cost, 0, min_n - i⟩) ∧
    ((seedColumn a min_n).getD i dEntry).matchCount = 0 := by
  rw [seedColumn_getD a min_n i hi]
  cases hsr : a.start_in_reference <;> cases hsq : a.start_in_query <;>
    simp [seedEntry, hsr, hsq]

/-- Witness for C3 at a concrete configuration and row. -/
theorem claim_C3_witness :
    (3 : Nat) ≤ specAligner.reference.length ∧
      ((seedColumn specAligner 0).getD 3 dEntry =
        (if specAligner.start_in_reference = false ∧ specAligner.start_in_query = false then
          ⟨max (3 : Int) 0 * specAligner.insertion_cost, 0, 0⟩
        else if specAligner.start_in_reference = true ∧ specAligner.start_in_query = false then
          ⟨0 * specAligner.insertion_cost, 0, min 0 (0 - (3 : Nat))⟩
        else if specAligner.start_in_reference = false ∧ specAligner.start_in_query = true then
          ⟨((3 : Nat) : Int) * specAligner.insertion_cost, 0, max 0 (0 - (3 : Nat))⟩
        else
          ⟨min ((3 : Nat) : Int) 0 * specAligner.insertion_cost, 0, 0 - (3 : Nat)⟩) ∧
      ((seedColumn specAligner 0).getD 3 dEntry).matchCount = 0) :=
  ⟨by decide, claim_C3 specAligner 0 3 (by decide)⟩

/-- Claim C4: with `k = ⌊max_error_rate * m⌋`, the computed column window
is `min_n = max(0, n - m - k)` when `stop_in_query` is unset and `0`
otherwise, `max_n = min(n, m + k)` when `start_in_query` is unset and `n`
otherwise, and every column index of the loop lies in `[min_n, max_n]`. -/
theorem claim_C4 (a : Aligner) (n : Nat) (h : 0 ≤ a.max_error_rate) :
    kMax a = ⌊a.max_error_rate * (a.reference.length : ℚ)⌋ ∧
    minN a n = (if a.stop_in_query then 0
      else max 0 ((n : Int) - (a.reference.length : Int) - kMax a)) ∧
    maxN a n = (if a.start_in_query then (n : Int)
      else min (n : Int) ((a.reference.length : Int) + kMax a)) ∧
    (∀ j ∈ intRange (minN a n + 1) (colCount a n), minN a n ≤ j ∧ j ≤ maxN a n) := by
  refine ⟨?_, rfl, rfl, ?_⟩
  · have h0 : ¬(a.max_error_rate * (a.reference.length : ℚ) < 0) := by
      have : (0 : ℚ) ≤ a.max_error_rate * (a.reference.length : ℚ) :=
        mul_nonneg h (Nat.cast_nonneg _)
      exact not_lt.2 this
    simp [kMax, ctrunc, h0]
  · intro j hj
    have hm := mem_intRange hj
    have hc : colCount a n = (maxN a n - minN a n).toNat := rfl
    omega

/-- Witness for C4 at the canonical configuration. -/
theorem claim_C4_witness :
    (0 : ℚ) ≤ specAligner.max_error_rate ∧
    (kMax specAligner = ⌊specAligner.max_error_rate * (specAligner.reference.length : ℚ)⌋ ∧
    minN specAligner 5 = (if specAligner.stop_in_query then 0
      else max 0 ((5 : Int) - (specAligner.reference.length : Int) - kMax specAligner)) ∧
    maxN specAligner 5 = (if specAligner.start_in_query then (5 : Int)
      else min (5 : Int) ((specAligner.reference.length : Int) + kMax specAligner)) ∧
    (∀ j ∈ intRange (minN specAligner 5 + 1) (colCount specAligner 5),
      minN specAligner 5 ≤ j ∧ j ≤ maxN specAligner 5)) :=
  ⟨by with_unfolding_all decide, claim_C4 specAligner 5 (by with_unfolding_all decide)⟩

end Align

namespace Align

/-- Spec-side match count for `compare_prefixes`: the number of positions
`i < min(|ref|, |query|)` at which the two characters match under the mode
selected by the wildcard flags. -/
def matchCountSpec (ref query : List Char) (wr wq : Bool) : Nat :=
  (List.range (min ref.length query.length)).countP
    (fun i => charsMatch wr wq (ref.getD i 'A') (query.getD i 'A'))

/-- Counting matching pairs over a zip equals counting matching positions
over the index range. -/
theorem zip_countP_range (p : Char → Char → Bool) :
    ∀ (xs ys : List Char),
      ((xs.zip ys).countP fun q => p q.1 q.2) =
        (List.range (min xs.length ys.length)).countP
          (fun i => p (xs.getD i 'A') (ys.getD i 'A'))
  | [], ys => by simp
  | x :: xs, [] => by simp
  | x :: xs, y :: ys => by
    rw [List.zip_cons_cons, List.countP_cons, zip_countP_range p xs ys]
    simp only [List.length_cons, Nat.succ_min_succ, List.range_succ_eq_map,
      List.countP_cons, List.countP_map, List.getD_cons_zero, List.getD_cons_succ,
      Function.comp_def]

/-- In ASCII mode a string matches itself at every position. -/
theorem self_zip_countP (s : List Char) :
    ((s.zip s).countP fun q => charsMatch false false q.1 q.2) = s.length := by
  induction s with
  | nil => simp
  | cons a t ih =>
    rw [List.zip_cons_cons, List.countP_cons, ih]
    simp [charsMatch]

/-- Claim C6: `compare_prefixes` always returns
`(0, length, 0, length, matches, length - matches)` with
`length = min(|ref|, |query|)` and `matches` the number of positions below
`length` at which the characters match under the selected mode; on a string
against itself in ASCII mode it returns `(0, |s|, 0, |s|, |s|, 0)`. -/
theorem claim_C6 (ref query : List Char) (wr wq : Bool) :
    compare_prefixes ref query wr wq =
      ⟨0, (min ref.length query.length : Nat), 0, (min ref.length query.length : Nat),
        (matchCountSpec ref query wr wq : Nat),
        ((min ref.length query.length : Nat) : Int) - (matchCountSpec ref query wr wq : Nat)⟩ ∧
    (∀ s : List Char, compare_prefixes s s false false =
      ⟨0, (s.length : Int), 0, (s.length : Int), (s.length : Int), 0⟩) := by
  constructor
  · rw [compare_prefixes, matchCountSpec, zip_countP_range]
  · intro s
    rw [compare_prefixes]
    simp [self_zip_countP s]

/-- Claim C7: assigning a value below 1 to `min_overlap` or `indel_cost`
is rejected with a descriptive failure (the stored state is not replaced);
assigning a value of at least 1 succeeds, `indel_cost` setting both
insertion and deletion cost to the same value. -/
theorem claim_C7 (a : Aligner) (v : Int) :
    (v < 1 → setMinOverlap a v = Except.error "Minimum overlap must be at least 1" ∧
      setIndelCost a v = Except.error "Insertion/deletion cost must be at least 1") ∧
    (1 ≤ v → setMinOverlap a v = Except.ok { a with min_overlap := v } ∧
      setIndelCost a v = Except.ok { a with insertion_cost := v, deletion_cost := v }) := by
  constructor
  · intro h
    constructor <;> simp [setMinOverlap, setIndelCost, h]
  · intro h
    have h' : ¬v < 1 := by omega
    constructor <;> simp [setMinOverlap, setIndelCost, h']

/-- Witness for C7: rejection at 0 and acceptance at 2. -/
theorem claim_C7_witness :
    ((0 : Int) < 1 ∧
      (setMinOverlap specAligner 0 = Except.error "Minimum overlap must be at least 1" ∧
        setIndelCost specAligner 0 = Except.error "Insertion/deletion cost must be at least 1")) ∧
    ((1 : Int) ≤ 2 ∧
      (setMinOverlap specAligner 2 = Except.ok { specAligner with min_overlap := 2 } ∧
        setIndelCost specAligner 2 =
          Except.ok { specAligner with insertion_cost := 2, deletion_cost := 2 })) :=
  ⟨⟨by decide, (claim_C7 specAligner 0).1 (by decide)⟩,
   ⟨by decide, (claim_C7 specAligner 2).2 (by decide)⟩⟩

/-- Claim C8: the canonical scenario.  Locating `SISSI` in `MISSISSIPPI`
with all boundary flags set, `max_error_rate = 0.1` and unit indel costs
returns exactly `(3, 8, 0, 5, 5, 0)`. -/
theorem claim_C8 :
    locate specAligner "SISSI".toList = LocateOutcome.found ⟨3, 8, 0, 5, 5, 0⟩ := by
  with_unfolding_all decide

/-- Claim C9: `locate` is deterministic; identical configuration and query
give identical output. -/
theorem claim_C9 (a1 a2 : Aligner) (q1 q2 : List Char) (ha : a1 = a2) (hq : q1 = q2) :
    locate a1 q1 = locate a2 q2 := by
  rw [ha, hq]

/-- Witness for C9 at the canonical scenario. -/
theorem claim_C9_witness :
    specAligner = specAligner ∧
      locate specAligner "SISSI".toList = locate specAligner "SISSI".toList :=
  ⟨rfl, claim_C9 specAligner specAligner "SISSI".toList "SISSI".toList rfl rfl⟩

end Align

namespace Align

/-- Aligner on reference `A` with `max_error_rate = 1`, defaults otherwise:
used to exhibit a returned alignment with zero matches. -/
def zeroMatchAligner : Aligner :=
  ⟨"A".toList, 1, 1, true, true, true, true, false, false, 1, 1⟩

/-- Aligner on reference `AB` with `max_error_rate = 1`, both start flags
unset: used to exhibit a returned alignment on an empty query. -/
def emptyQueryAligner : Aligner :=
  ⟨"AB".toList, 1, 1, false, false, true, true, false, false, 1, 1⟩

/-- The invariant claimed for every returned tuple, with the strict
inequality `querystart < querystop` as claimed. -/
def strictInvariant (a : Aligner) (n : Nat) (r : LocateResult) : Prop :=
  0 ≤ r.refstart ∧ r.refstart < r.refstop ∧ r.refstop ≤ (a.reference.length : Int) ∧
    0 ≤ r.querystart ∧ r.querystart < r.querystop ∧ r.querystop ≤ (n : Int) ∧
    min r.refstart r.querystart = 0 ∧
    (r.errors : ℚ) ≤ ((r.refstop - r.refstart : Int) : ℚ) * a.max_error_rate ∧
    0 ≤ r.matchCount

instance instDecidableStrictInvariant (a : Aligner) (n : Nat) (r : LocateResult) :
    Decidable (strictInvariant a n r) := by
  unfold strictInvariant
  exact inferInstance

/-- Counterexample to C1 as stated: on reference `AB` with an empty query,
`max_error_rate = 1`, `min_overlap = 1` and both start flags unset,
`locate` returns the tuple `(0, 1, 0, 0, 0, 1)`, which has
`querystart = querystop = 0`, violating `querystart < querystop`. -/
theorem claim_C1_counterexample :
    locate emptyQueryAligner [] = LocateOutcome.found ⟨0, 1, 0, 0, 0, 1⟩ ∧
    ¬strictInvariant emptyQueryAligner 0 ⟨0, 1, 0, 0, 0, 1⟩ := by
  constructor
  · with_unfolding_all decide
  · with_unfolding_all decide

/-- Counterexample to C10 as stated: on reference `A` with query `B` and
`max_error_rate = 1`, every admissible alignment has zero matches, yet
`locate` returns `(0, 1, 0, 1, 0, 1)` with `matchCount = 0` rather than the
absence indicator: the best-candidate update also fires when the match
counts are equal and the cost is strictly smaller. -/
theorem claim_C10_counterexample :
    locate zeroMatchAligner "B".toList = LocateOutcome.found ⟨0, 1, 0, 1, 0, 1⟩ ∧
    ¬(1 ≤ (LocateResult.mk 0 1 0 1 0 1).matchCount) := by
  constructor
  · with_unfolding_all decide
  · decide

/-- Claim C5: once a bottom-row candidate is accepted with `cost = 0` and
`matchCount = m`, the early-exit flag is set and the column loop scans no
further columns, whatever they may contain. -/
theorem claim_C5 (a : Aligner) (s2 : List Nat) (k : Int) :
    (∀ (count : Nat) (j : Int) (st : LoopState), st.stopped = true →
      runColumns a s2 k count j st = st) ∧
    (∀ (st : LoopState) (j : Int), st.stopped = false →
      (doColumn a s2 k st j).best ≠ st.best →
      (doColumn a s2 k st j).best.cost = 0 →
      (doColumn a s2 k st j).best.matchCount = (a.reference.length : Int) →
      (doColumn a s2 k st j).stopped = true) := by
  constructor
  · intro count
    induction count with
    | zero => intro j st _; rfl
    | succ c ih =>
      intro j st h
      rw [runColumns]
      have hd : doColumn a s2 k st j = st := by
        rw [doColumn, if_pos h]
      rw [hd, ih (j + 1) st h]
  · intro st j h
    simp only [doColumn, h, Bool.false_eq_true, if_false]
    split
    · intro hne _ _
      exact absurd rfl hne
    · split
      · split
        · intro _ hcost hm
          simp only [Bool.and_eq_true, beq_iff_eq]
          exact ⟨hcost, hm⟩
        · intro hne _ _
          exact absurd rfl hne
      · intro hne _ _
        exact absurd rfl hne

end Align

namespace Align

/-- Aligner on reference `A` with `max_error_rate = 0`, defaults otherwise:
locating the query `A` hits the in-loop exact-match exit at column 1. -/
def exactAligner : Aligner :=
  ⟨"A".toList, 0, 1, true, true, true, true, false, false, 1, 1⟩

/-- The seeded loop state for `exactAligner` with a query of length 1. -/
def exactState : LoopState := initialState exactAligner 1

/-- A loop state with the early-exit flag already set. -/
def stoppedState : LoopState := ⟨[], 0, ⟨0, 0, 0, 0, 0⟩, true⟩

/-- Witness for C5: a stopped state passes unchanged through three more
columns, and the exact-match column on `exactAligner` sets the stop flag. -/
theorem claim_C5_witness :
    runColumns exactAligner [] 0 3 5 stoppedState = stoppedState ∧
    (doColumn exactAligner (s2bytes exactAligner "A".toList) (kMax exactAligner)
      exactState 1).stopped = true :=
  ⟨(claim_C5 exactAligner [] 0).1 3 5 stoppedState rfl,
   (claim_C5 exactAligner (s2bytes exactAligner "A".toList) (kMax exactAligner)).2
     exactState 1 rfl (by with_unfolding_all decide) (by with_unfolding_all decide)
     (by with_unfolding_all decide)⟩

end Align

namespace Align

/-- Invariant of a DP cell after column `bound` has been processed: the
match count is nonnegative and the origin does not exceed `bound` (origins
are seeded at most `min_n` and row 0 of column `j` receives origin `j`). -/
def entryOK (bound : Int) (e : Entry) : Prop :=
  0 ≤ e.matchCount ∧ e.origin ≤ bound

/-- Columnwise cell invariant. -/
def colOK (bound : Int) (col : List Entry) : Prop :=
  ∀ e ∈ col, entryOK bound e

/-- Facts recorded about any best exit that was accepted by the test
`pass`: overlap and error-rate bounds, nonnegative match count, endpoint
ranges, and `origin ≤ query_stop`. -/
def AcceptedBest (a : Aligner) (n : Nat) (b : MatchRec) : Prop :=
  a.min_overlap ≤ b.ref_stop + min b.origin 0 ∧
    (b.cost : ℚ) ≤ ((b.ref_stop + min b.origin 0 : Int) : ℚ) * a.max_error_rate ∧
    0 ≤ b.matchCount ∧ 0 ≤ b.ref_stop ∧ b.ref_stop ≤ (a.reference.length : Int) ∧
    0 ≤ b.query_stop ∧ b.query_stop ≤ (n : Int) ∧ b.origin ≤ b.query_stop

/-- The running best is either still the sentinel or was accepted. -/
def bestOK (a : Aligner) (n : Nat) (b : MatchRec) : Prop :=
  b = initBest a n ∨ AcceptedBest a n b

/-- The cell invariant is monotone in the bound. -/
theorem entryOK_mono {b b' : Int} {e : Entry} (h : b ≤ b') (he : entryOK b e) :
    entryOK b' e :=
  ⟨he.1, le_trans he.2 h⟩

/-- The column invariant is monotone in the bound. -/
theorem colOK_mono {b b' : Int} {col : List Entry} (h : b ≤ b') (hc : colOK b col) :
    colOK b' col :=
  fun e he => entryOK_mono h (hc e he)

/-- The default entry satisfies the invariant for nonnegative bounds. -/
theorem entryOK_dEntry {b : Int} (h : 0 ≤ b) : entryOK b ⟨0, 0, 0⟩ :=
  ⟨le_refl 0, h⟩

/-- A property of all members and of the default holds for `headD`. -/
theorem headD_prop {α : Type} {P : α → Prop} {l : List α} {d : α}
    (h : ∀ e ∈ l, P e) (hd : P d) : P (l.headD d) := by
  cases l with
  | nil => exact hd
  | cons x t => exact h x (List.mem_cons_self x t)

/-- The DP recurrence preserves the cell invariant. -/
theorem computeCell_entryOK {b : Int} {diag up left : Entry}
    (hd : entryOK b diag) (hu : entryOK b up) (hl : entryOK b left)
    (eq : Bool) (insC delC : Int) :
    entryOK b (computeCell eq diag up left insC delC) := by
  obtain ⟨hd1, hd2⟩ := hd
  obtain ⟨hu1, hu2⟩ := hu
  obtain ⟨hl1, hl2⟩ := hl
  simp only [computeCell, entryOK]
  split
  · dsimp only
    exact ⟨by omega, hd2⟩
  · split
    · exact ⟨hd1, hd2⟩
    · split
      · exact ⟨hu1, hu2⟩
      · exact ⟨hl1, hl2⟩

/-- The inner row loop preserves the column invariant. -/
theorem fillRows_colOK (ascii : Bool) (insC delC : Int) (c2 : Nat) {b : Int} :
    ∀ (rows : Nat) (s1 : List Nat) (diag up : Entry) (old : List Entry),
      entryOK b diag → entryOK b up → colOK b old →
      colOK b (fillRows ascii insC delC c2 rows s1 diag up old) := by
  intro rows
  induction rows with
  | zero =>
    intro s1 diag up old _ _ ho
    simpa [fillRows] using ho
  | succ r ih =>
    intro s1 diag up old hd hu ho
    cases s1 with
    | nil => simpa [fillRows] using ho
    | cons c1 s1t =>
      cases old with
      | nil =>
        intro e he
        simp [fillRows] at he
      | cons oldL oldT =>
        have hL : entryOK b oldL := ho _ (List.mem_cons_self _ _)
        have hT : colOK b oldT := fun x hx => ho x (List.mem_cons_of_mem _ hx)
        have hcell := computeCell_entryOK hd hu hL (charEq ascii c1 c2) insC delC
        intro e he
        simp only [fillRows] at he
        rcases List.mem_cons.mp he with rfl | hmem
        · exact hcell
        · exact ih s1t oldL _ oldT hL hcell hT e hmem

/-- Filling column `j` from a column satisfying the invariant at `j - 1`
gives a column satisfying it at `j`. -/
theorem newColumn_colOK (a : Aligner) (s2 : List Nat) (st : LoopState) (j : Int)
    (hj : 1 ≤ j) (hcol : colOK (j - 1) st.column) :
    colOK j (newColumn a s2 st j) := by
  have hd0 : entryOK (j - 1) (st.column.headD ⟨0, 0, 0⟩) :=
    headD_prop hcol (entryOK_dEntry (by omega))
  have htail : colOK (j - 1) st.column.tail :=
    fun x hx => hcol x (List.mem_of_mem_tail hx)
  have he0 : entryOK j (if a.start_in_query then
      { st.column.headD ⟨0, 0, 0⟩ with origin := j }
      else { st.column.headD ⟨0, 0, 0⟩ with cost := j * a.insertion_cost }) := by
    split
    · exact ⟨hd0.1, le_refl j⟩
    · refine ⟨hd0.1, ?_⟩
      dsimp only
      have := hd0.2
      omega
  intro e he
  simp only [newColumn] at he
  rcases List.mem_cons.mp he with rfl | hmem
  · exact he0
  · exact fillRows_colOK _ _ _ _ _ _ _ _ _
      (entryOK_mono (by omega) hd0) he0 (colOK_mono (by omega) htail) e hmem

end Align

namespace Align

/-- The seeded column satisfies the invariant at bound `min_n`. -/
theorem seedColumn_colOK (a : Aligner) (min_n : Int) (h : 0 ≤ min_n) :
    colOK min_n (seedColumn a min_n) := by
  intro e he
  simp only [seedColumn, List.mem_map, List.mem_range] at he
  obtain ⟨i, _, rfl⟩ := he
  simp only [seedEntry, entryOK]
  split
  · dsimp only
    omega
  · split
    · dsimp only
      omega
    · split
      · dsimp only
        omega
      · dsimp only
        omega

/-- The error budget is nonnegative when the error rate is. -/
theorem kMax_nonneg (a : Aligner) (h : 0 ≤ a.max_error_rate) : 0 ≤ kMax a := by
  have h0 : (0 : ℚ) ≤ a.max_error_rate * (a.reference.length : ℚ) :=
    mul_nonneg h (Nat.cast_nonneg _)
  simp only [kMax, ctrunc, not_lt.2 h0, if_neg (not_lt.2 h0)]
  exact Int.floor_nonneg.2 h0

/-- The leftmost computed column index is nonnegative. -/
theorem minN_nonneg (a : Aligner) (n : Nat) : 0 ≤ minN a n := by
  unfold minN
  split <;> omega

/-- The leftmost computed column index is at most `n` when the error rate
is nonnegative. -/
theorem minN_le (a : Aligner) (n : Nat) (h : 0 ≤ a.max_error_rate) :
    minN a n ≤ (n : Nat) := by
  have hk := kMax_nonneg a h
  unfold minN
  split <;> omega

/-- The rightmost computed column index is at most `n`. -/
theorem maxN_le (a : Aligner) (n : Nat) : maxN a n ≤ (n : Nat) := by
  unfold maxN
  split <;> omega

/-- A conditional best update preserves the best invariant, provided the
candidate cell and endpoints are in range. -/
theorem tryUpdate_bestOK (a : Aligner) (n : Nat) (b : MatchRec) (e : Entry)
    (rstop qstop : Int) (hb : bestOK a n b) (hm : 0 ≤ e.matchCount)
    (ho : e.origin ≤ qstop) (hr0 : 0 ≤ rstop)
    (hrm : rstop ≤ (a.reference.length : Int))
    (hq0 : 0 ≤ qstop) (hqn : qstop ≤ (n : Int)) :
    bestOK a n (tryUpdate a b e rstop qstop) := by
  unfold tryUpdate
  split
  · rename_i hp
    unfold pass at hp
    right
    exact ⟨hp.1, hp.2.1, hm, hr0, hrm, hq0, hqn, ho⟩
  · exact hb

/-- One column step preserves the column and best invariants. -/
theorem doColumn_good (a : Aligner) (s2 : List Nat) (k : Int) (n : Nat)
    (st : LoopState) (j : Int) (hj : 1 ≤ j) (hjn : j ≤ (n : Int))
    (hcol : colOK (j - 1) st.column) (hbest : bestOK a n st.best) :
    colOK j (doColumn a s2 k st j).column ∧ bestOK a n (doColumn a s2 k st j).best := by
  by_cases hstop : st.stopped = true
  · rw [doColumn, if_pos hstop]
    exact ⟨colOK_mono (by omega) hcol, hbest⟩
  · have hnc := newColumn_colOK a s2 st j hj hcol
    rw [Bool.not_eq_true] at hstop
    simp only [doColumn, hstop, Bool.false_eq_true, if_false]
    split
    · exact ⟨hnc, hbest⟩
    · split
      · split
        · rename_i hp
          unfold pass at hp
          refine ⟨hnc, Or.inr ?_⟩
          have hem : entryOK j ((newColumn a s2 st j).getD a.reference.length ⟨0, 0, 0⟩) :=
            getD_prop hnc (entryOK_dEntry (by omega)) _
          unfold AcceptedBest
          dsimp only
          exact ⟨hp.1, hp.2.1, hem.1, Int.ofNat_nonneg _, le_refl _, by omega, hjn, hem.2⟩
        · exact ⟨hnc, hbest⟩
      · exact ⟨hnc, hbest⟩

/-- The column loop preserves the invariants, advancing the column bound
by the number of processed columns. -/
theorem runColumns_good (a : Aligner) (s2 : List Nat) (k : Int) (n : Nat) :
    ∀ (count : Nat) (j : Int) (st : LoopState), 1 ≤ j →
      (count = 0 ∨ j + (count : Int) ≤ (n : Int) + 1) →
      colOK (j - 1) st.column → bestOK a n st.best →
      colOK (j - 1 + (count : Int)) (runColumns a s2 k count j st).column ∧
        bestOK a n (runColumns a s2 k count j st).best := by
  intro count
  induction count with
  | zero =>
    intro j st hj _ hc hb
    simp only [runColumns, Nat.cast_zero, add_zero]
    exact ⟨hc, hb⟩
  | succ c ih =>
    intro j st hj hcnt hc hb
    have hjn : j ≤ (n : Int) := by
      rcases hcnt with h | h
      · omega
      · push_cast at h
        omega
    have hd := doColumn_good a s2 k n st j hj hjn hc hb
    simp only [runColumns]
    have hrec := ih (j + 1) (doColumn a s2 k st j) (by omega)
      (by
        rcases hcnt with h | h
        · omega
        · right
          push_cast at h ⊢
          omega)
      (by simpa using hd.1) hd.2
    refine ⟨colOK_mono ?_ hrec.1, hrec.2⟩
    push_cast
    omega

end Align

namespace Align

/-- Rows scanned by the final-column sweep lie in `[0, m]`. -/
theorem sweep_idx_bounds (a : Aligner) :
    ∀ i ∈ intRange (firstI a) (sweepCount a), 0 ≤ i ∧ i ≤ (a.reference.length : Int) := by
  intro i hi
  have hm := mem_intRange hi
  have h1 : firstI a = 0 ∨ firstI a = (a.reference.length : Int) := by
    unfold firstI
    split
    · exact Or.inl rfl
    · exact Or.inr rfl
  have h2 : sweepCount a = ((a.reference.length : Int) - firstI a + 1).toNat := rfl
  omega

/-- The final-column sweep preserves the best invariant. -/
theorem sweepFold_bestOK (a : Aligner) (n : Nat) (col : List Entry) :
    ∀ (idxs : List Int) (b : MatchRec), colOK (n : Int) col →
      (∀ i ∈ idxs, 0 ≤ i ∧ i ≤ (a.reference.length : Int)) → bestOK a n b →
      bestOK a n (sweepFold a (n : Int) col idxs b) := by
  intro idxs
  induction idxs with
  | nil =>
    intro b _ _ hb
    exact hb
  | cons i rest ih =>
    intro b hcol hidx hb
    have hie := getD_prop hcol (entryOK_dEntry (Int.ofNat_nonneg n)) i.toNat
    have hi := hidx i (List.mem_cons_self _ _)
    have hb' := tryUpdate_bestOK a n b (col.getD i.toNat ⟨0, 0, 0⟩) i (n : Int) hb
      hie.1 hie.2 hi.1 hi.2 (Int.ofNat_nonneg n) (le_refl _)
    have hrest := ih (tryUpdate a b (col.getD i.toNat ⟨0, 0, 0⟩) i (n : Int)) hcol
      (fun x hx => hidx x (List.mem_cons_of_mem _ hx)) hb'
    simpa [sweepFold, List.foldl_cons] using hrest

/-- The best exit computed by `locate` satisfies the best invariant,
provided the error rate is nonnegative. -/
theorem finalBest_good (a : Aligner) (q : List Char) (hrate : 0 ≤ a.max_error_rate) :
    bestOK a q.length (finalBest a q) := by
  have hmn0 := minN_nonneg a q.length
  have hmnn := minN_le a q.length hrate
  have hmxn := maxN_le a q.length
  have hcc : colCount a q.length = (maxN a q.length - minN a q.length).toNat := rfl
  have hseed := seedColumn_colOK a (minN a q.length) hmn0
  have hrun := runColumns_good a (s2bytes a q) (kMax a) q.length
    (colCount a q.length) (minN a q.length + 1)
    (initialState a q.length) (by omega)
    (by omega)
    (by simpa using hseed)
    (Or.inl rfl)
  simp only [finalBest]
  split
  · exact sweepFold_bestOK a q.length _ _ _
      (colOK_mono (by omega) hrun.1) (sweep_idx_bounds a) hrun.2
  · exact hrun.2


/-- Claim C1 (amended): for every configuration with a nonnegative error
rate, a tuple returned by `locate` satisfies
`0 ≤ refstart < refstop ≤ m`, `0 ≤ querystart ≤ querystop ≤ n`,
`min(refstart, querystart) = 0`,
`errors ≤ (refstop - refstart) * max_error_rate`, `refstop - refstart > 0`
and `matches ≥ 0`.  (The claim's strict `querystart < querystop` fails, see
the counterexample; it is weakened to `querystart ≤ querystop`.) -/
theorem claim_C1 (a : Aligner) (q : List Char) (r : LocateResult)
    (hrate : 0 ≤ a.max_error_rate)
    (h : locate a q = LocateOutcome.found r) :
    0 ≤ r.refstart ∧ r.refstart < r.refstop ∧
      r.refstop ≤ (a.reference.length : Int) ∧
      0 ≤ r.querystart ∧ r.querystart ≤ r.querystop ∧
      r.querystop ≤ (q.length : Int) ∧
      min r.refstart r.querystart = 0 ∧
      (r.errors : ℚ) ≤ ((r.refstop - r.refstart : Int) : ℚ) * a.max_error_rate ∧
      0 < r.refstop - r.refstart ∧ 0 ≤ r.matchCount := by
  have hb := finalBest_good a q hrate
  set b := finalBest a q with hbdef
  simp only [locate] at h
  rw [← hbdef] at h
  split at h
  · exact absurd h (by simp)
  · rename_i hne
    have hA : AcceptedBest a q.length b := by
      rcases hb with h0 | hA
      · exact absurd (by rw [h0]; rfl) hne
      · exact hA
    obtain ⟨A1, A2, A3, A4, A5, A6, A7, A8⟩ := hA
    split at h
    · rename_i ho
      split at h
      · have hr : r = ⟨0, b.ref_stop, b.origin, b.query_stop, b.matchCount, b.cost⟩ := by
          injection h with h'
          exact h'.symm
        subst hr
        dsimp only
        have hmin : min b.origin 0 = 0 := by omega
        refine ⟨le_refl 0, by omega, A5, ho, A8, A7, by omega, ?_, by omega, A3⟩
        rw [show b.ref_stop - (0 : Int) = b.ref_stop + min b.origin 0 from by omega]
        exact A2
      · exact absurd h (by simp)
    · rename_i ho
      split at h
      · have hr : r = ⟨-b.origin, b.ref_stop, 0, b.query_stop, b.matchCount, b.cost⟩ := by
          injection h with h'
          exact h'.symm
        subst hr
        dsimp only
        have hmin : min b.origin 0 = b.origin := by omega
        refine ⟨by omega, by omega, A5, le_refl 0, A6, A7, by omega, ?_, by omega, A3⟩
        rw [show b.ref_stop - -b.origin = b.ref_stop + min b.origin 0 from by omega]
        exact A2
      · exact absurd h (by simp)

/-- Witness for C1 at the canonical scenario. -/
theorem claim_C1_witness :
    (0 ≤ specAligner.max_error_rate ∧
      locate specAligner "SISSI".toList = LocateOutcome.found ⟨3, 8, 0, 5, 5, 0⟩) ∧
    (0 ≤ (⟨3, 8, 0, 5, 5, 0⟩ : LocateResult).refstart ∧
      (⟨3, 8, 0, 5, 5, 0⟩ : LocateResult).refstart <
        (⟨3, 8, 0, 5, 5, 0⟩ : LocateResult).refstop ∧
      (⟨3, 8, 0, 5, 5, 0⟩ : LocateResult).refstop ≤ (specAligner.reference.length : Int) ∧
      0 ≤ (⟨3, 8, 0, 5, 5, 0⟩ : LocateResult).querystart ∧
      (⟨3, 8, 0, 5, 5, 0⟩ : LocateResult).querystart ≤
        (⟨3, 8, 0, 5, 5, 0⟩ : LocateResult).querystop ∧
      (⟨3, 8, 0, 5, 5, 0⟩ : LocateResult).querystop ≤ ("SISSI".toList.length : Int) ∧
      min (⟨3, 8, 0, 5, 5, 0⟩ : LocateResult).refstart
        (⟨3, 8, 0, 5, 5, 0⟩ : LocateResult).querystart = 0 ∧
      ((⟨3, 8, 0, 5, 5, 0⟩ : LocateResult).errors : ℚ) ≤
        (((⟨3, 8, 0, 5, 5, 0⟩ : LocateResult).refstop -
          (⟨3, 8, 0, 5, 5, 0⟩ : LocateResult).refstart : Int) : ℚ) *
          specAligner.max_error_rate ∧
      0 < (⟨3, 8, 0, 5, 5, 0⟩ : LocateResult).refstop -
        (⟨3, 8, 0, 5, 5, 0⟩ : LocateResult).refstart ∧
      0 ≤ (⟨3, 8, 0, 5, 5, 0⟩ : LocateResult).matchCount) :=
  ⟨⟨by with_unfolding_all decide, by with_unfolding_all decide⟩,
   claim_C1 specAligner "SISSI".toList ⟨3, 8, 0, 5, 5, 0⟩
     (by with_unfolding_all decide) (by with_unfolding_all decide)⟩

/-- Claim C10 (amended): the best-candidate update fires exactly when the
candidate has strictly more matches than the current best, or equally many
matches at strictly smaller cost — not only in the strictly-more case; and
every tuple returned by `locate` (for a nonnegative error rate) has
`matches ≥ 0`, not necessarily `matches ≥ 1`. -/
theorem claim_C10 (a : Aligner) :
    (∀ (best : MatchRec) (e : Entry) (rstop qstop : Int),
      tryUpdate a best e rstop qstop ≠ best →
      (best.matchCount < e.matchCount ∨
        (e.matchCount = best.matchCount ∧ e.cost < best.cost))) ∧
    (∀ (q : List Char) (r : LocateResult),
      0 ≤ a.max_error_rate → locate a q = LocateOutcome.found r →
      0 ≤ r.matchCount) := by
  constructor
  · intro best e rstop qstop hne
    unfold tryUpdate at hne
    split at hne
    · rename_i hp
      unfold pass at hp
      exact hp.2.2
    · exact absurd rfl hne
  · intro q r hrate h
    have hb := finalBest_good a q hrate
    set b := finalBest a q with hbdef
    simp only [locate] at h
    rw [← hbdef] at h
    split at h
    · exact absurd h (by simp)
    · rename_i hne
      have hA : AcceptedBest a q.length b := by
        rcases hb with h0 | hA
        · exact absurd (by rw [h0]; rfl) hne
        · exact hA
      split at h
      · split at h
        · have hr : r = ⟨0, b.ref_stop, b.origin, b.query_stop, b.matchCount, b.cost⟩ := by
            injection h with h'
            exact h'.symm
          subst hr
          exact hA.2.2.1
        · exact absurd h (by simp)
      · split at h
        · have hr : r = ⟨-b.origin, b.ref_stop, 0, b.query_stop, b.matchCount, b.cost⟩ := by
            injection h with h'
            exact h'.symm
          subst hr
          exact hA.2.2.1
        · exact absurd h (by simp)

/-- Witness for C10: a concrete update that fires on equal matches with
smaller cost, and a returned tuple with nonnegative matches. -/
theorem claim_C10_witness :
    (tryUpdate exactAligner (initBest exactAligner 1) ⟨0, 1, 0⟩ 1 1 ≠
        initBest exactAligner 1 ∧
      ((initBest exactAligner 1).matchCount < (1 : Int) ∨
        ((1 : Int) = (initBest exactAligner 1).matchCount ∧
          (0 : Int) < (initBest exactAligner 1).cost))) ∧
    (0 ≤ zeroMatchAligner.max_error_rate ∧
      locate zeroMatchAligner "B".toList = LocateOutcome.found ⟨0, 1, 0, 1, 0, 1⟩ ∧
      0 ≤ (⟨0, 1, 0, 1, 0, 1⟩ : LocateResult).matchCount) :=
  ⟨⟨by with_unfolding_all decide,
    (claim_C10 exactAligner).1 (initBest exactAligner 1) ⟨0, 1, 0⟩ 1 1
      (by with_unfolding_all decide)⟩,
   ⟨by with_unfolding_all decide, by with_unfolding_all decide,
    (claim_C10 zeroMatchAligner).2 "B".toList ⟨0, 1, 0, 1, 0, 1⟩
      (by with_unfolding_all decide) (by with_unfolding_all decide)⟩⟩

end Align
